import Mathlib

/-! Shallow embedding of the sdkman-ui core (src/api): the local installation
scanner (local.rs), the remote catalog and version-list parsers (remote.rs),
and the field-access helper (util.rs).  Strings are modelled as lists of
characters; offsets are counted in characters (the Rust code uses byte
offsets, which agree on the ASCII catalog data this program consumes).
Machine integers (usize) are modelled as Nat with explicit wrap-around
modulo 2^64 where overflow matters (release-build semantics).  Rust panics
are surfaced as Option results (none = panic). -/

/-- Rust io errors are modelled by their message. -/
abbrev IoErr := String

/-- Rust HashMap String bool from local.rs, modelled as an association list
with insert-replaces-value semantics (the program uses only lookup,
contains_key and insert on it, which are iteration-order independent). -/
abbrev VMap := List (List Char × Bool)

def lookupMap : VMap → List Char → Option Bool
  | [], _ => none
  | (k, v) :: t, key => if k = key then some v else lookupMap t key

/-- HashMap::contains_key. -/
def containsKey (m : VMap) (key : List Char) : Bool :=
  (lookupMap m key).isSome

/-- HashMap::insert: replaces the value of an existing key, else adds the
binding. -/
def insertMap : VMap → List Char → Bool → VMap
  | [], key, v => [(key, v)]
  | (k, w) :: t, key, v =>
    if k = key then (key, v) :: t else (k, w) :: insertMap t key v

/-! ### local.rs: retrieve_local_candidates

The filesystem is abstracted as the data the scanner reads from it: each
directory entry of a candidate directory (`fs::read_dir(candidate_path)`)
either fails (the `version_dir?` in the source) or delivers an entry whose
`canonical` field models `canonicalize()?.file_name()...to_string()` — the
canonical version identifier, or the io error of a dangling symlink. -/

instance exceptDecEq {ε α : Type} [DecidableEq ε] [DecidableEq α] :
    DecidableEq (Except ε α)
  | .ok a, .ok b =>
    if h : a = b then .isTrue (by rw [h]) else
      .isFalse (fun hh => h (Except.ok.inj hh))
  | .ok _, .error _ => .isFalse (fun hh => Except.noConfusion hh)
  | .error _, .ok _ => .isFalse (fun hh => Except.noConfusion hh)
  | .error e, .error f =>
    if h : e = f then .isTrue (by rw [h]) else
      .isFalse (fun hh => h (Except.error.inj hh))

structure VersionEntryFs where
  is_file : Bool
  canonical : Except IoErr (List Char)
deriving DecidableEq

structure CandEntryFs where
  name : List Char
  is_file : Bool
  sub : Except IoErr (List (Except IoErr VersionEntryFs))
deriving DecidableEq

structure LocalCandidate where
  binary_name : List Char
  versions : VMap
deriving DecidableEq

/-- The inner loop of retrieve_local_candidates (local.rs lines 47-66):
`let current = local_versions.contains_key(&version_id);
 local_versions.insert(version_id, current);`
with `?` on each entry and on canonicalize. -/
def scan_versions : List (Except IoErr VersionEntryFs) → VMap → Except IoErr VMap
  | [], m => .ok m
  | .error e :: _, _ => .error e
  | .ok v :: t, m =>
    if v.is_file then scan_versions t m
    else
      match v.canonical with
      | .error e => .error e
      | .ok version_id =>
          scan_versions t (insertMap m version_id (containsKey m version_id))

/-- The outer loop of retrieve_local_candidates (local.rs lines 34-69). -/
def build_candidates :
    List (Except IoErr CandEntryFs) → List LocalCandidate →
      Except IoErr (List LocalCandidate)
  | [], acc => .ok acc
  | .error e :: _, _ => .error e
  | .ok c :: t, acc =>
    if c.is_file then build_candidates t acc
    else
      match c.sub with
      | .error e => .error e
      | .ok entries =>
          match scan_versions entries [] with
          | .error e => .error e
          | .ok m => build_candidates t (acc ++ [LocalCandidate.mk c.name m])

/-- retrieve_local_candidates (local.rs lines 28-74).  The argument models
the result of reading the configured root (env var lookup plus
`fs::read_dir(candidates_dir)?`). -/
def retrieve_local_candidates
    (root : Except IoErr (List (Except IoErr CandEntryFs))) :
    Except IoErr (List LocalCandidate) :=
  match root with
  | .error e => .error e
  | .ok entries => build_candidates entries []

/-- The success path of the inner loop: processing a list of canonical
version identifiers in listing order. -/
def buildVersions : List (List Char) → VMap → VMap
  | [], m => m
  | id :: t, m => buildVersions t (insertMap m id (containsKey m id))

/-! ### String primitives shared by remote.rs

These model the Rust std string operations the parsers use.  All are
structural recursions so that concrete inputs evaluate inside the kernel. -/

/-- Rust char::is_whitespace, restricted to the ASCII whitespace actually
occurring in catalog text. -/
def wsB (c : Char) : Bool :=
  c == ' ' || c == '\t' || c == '\n' || c == '\r' ||
    c.toNat == 11 || c.toNat == 12

/-- Rust char::is_ascii_digit. -/
def isDig (c : Char) : Bool :=
  48 ≤ c.toNat && c.toNat ≤ 57

def splitOnCharGo (sep : Char) : List Char → List Char → List (List Char)
  | [], acc => [acc.reverse]
  | c :: t, acc =>
    if c == sep then acc.reverse :: splitOnCharGo sep t []
    else splitOnCharGo sep t (c :: acc)

/-- Rust str::split(char). -/
def splitOnChar (sep : Char) (l : List Char) : List (List Char) :=
  splitOnCharGo sep l []

/-- Drops the final segment when it is empty; str::split_terminator does this
to a plain split. -/
def dropTrailingEmpty (r : List (List Char)) : List (List Char) :=
  if r.getLast? = some [] then r.dropLast else r

/-- Rust str::split_terminator(char). -/
def splitOnCharTerm (sep : Char) (l : List Char) : List (List Char) :=
  dropTrailingEmpty (splitOnChar sep l)

def stripCR (l : List Char) : List Char :=
  if l.getLast? = some '\r' then l.dropLast else l

/-- Rust str::lines: split at newline, drop one carriage return before each
newline, and do not yield a final empty line for a trailing newline. -/
def rustLines (l : List Char) : List (List Char) :=
  if (splitOnChar '\n' l).getLast? = some [] then
    ((splitOnChar '\n' l).dropLast).map stripCR
  else
    ((splitOnChar '\n' l).dropLast).map stripCR ++
      ((splitOnChar '\n' l).getLast?).toList

/-- Rust str::trim (whitespace from both ends). -/
def trimChars (l : List Char) : List Char :=
  ((l.dropWhile wsB).reverse.dropWhile wsB).reverse

def splitWhitespaceGo : List Char → List Char → List (List Char)
  | [], acc => if acc.isEmpty then [] else [acc.reverse]
  | c :: t, acc =>
    if wsB c then
      if acc.isEmpty then splitWhitespaceGo t []
      else acc.reverse :: splitWhitespaceGo t []
    else splitWhitespaceGo t (c :: acc)

/-- Rust str::split_whitespace: runs of non-whitespace, no empty tokens. -/
def splitWhitespaceL (l : List Char) : List (List Char) :=
  splitWhitespaceGo l []

/-- First character position at which `pat` occurs in the list, as
str::find(&str) does (byte offsets and char offsets agree on ASCII). -/
def findSubstr (pat : List Char) : List Char → Option Nat
  | [] => if pat.isEmpty then some 0 else none
  | c :: t =>
    if pat.isPrefixOf (c :: t) then some 0
    else (findSubstr pat t).map (fun n => n + 1)

/-- Rust str::contains(&str). -/
def containsSub (pat l : List Char) : Bool :=
  (findSubstr pat l).isSome

/-- Scanner for str::split(&str) with a non-empty pattern: leftmost
non-overlapping matches.  `skip` counts pattern characters still to be
consumed after a match was found. -/
def splitGo (sep : List Char) : List Char → List Char → Nat → List (List Char)
  | [], cur, _ => [cur.reverse]
  | _ :: t, cur, skip + 1 => splitGo sep t cur skip
  | c :: t, cur, 0 =>
    if sep.isPrefixOf (c :: t) then
      cur.reverse :: splitGo sep t [] (sep.length - 1)
    else splitGo sep t (c :: cur) 0

/-- Rust str::split with an empty pattern: an empty segment before every
character boundary. -/
def emptySplit (l : List Char) : List (List Char) :=
  ([] : List Char) :: l.map (fun c => [c]) ++ [[]]

/-- Rust str::split(&str). -/
def rustSplit (sep l : List Char) : List (List Char) :=
  if sep.isEmpty then emptySplit l else splitGo sep l [] 0

/-- Rust str::split_terminator(&str). -/
def rustSplitTerminator (sep l : List Char) : List (List Char) :=
  dropTrailingEmpty (rustSplit sep l)

/-- util.rs string_at: total field access, empty string when out of range. -/
def string_at (parts : List (List Char)) (index : Nat) : List Char :=
  ((parts.get? index).map (fun p => p)).getD []

/-- mapM over Option, modelling a loop of `unwrap()`s: a single panic (none)
poisons the whole traversal. -/
def mapOpt (f : α → Option β) : List α → Option (List β)
  | [] => some []
  | a :: t =>
    match f a, mapOpt f t with
    | some b, some bs => some (b :: bs)
    | _, _ => none

/-- usize arithmetic wraps modulo 2^64 in release builds. -/
def U64 : Nat := 2 ^ 64

/-- Rust `a - b` on usize (release semantics: wrap-around). -/
def usizeSub (a b : Nat) : Nat := (a + (U64 - b % U64)) % U64

/-! ### remote.rs: regular expressions

The two statics of RemoteCandidate::from_str are deterministic on their
pattern shapes and are embedded as direct scanners.

URI_REGEX = (http|https)://(\w+:{0,1}\w*@)?(\S+)(:[0-9]+)?(/|/([...]))?  —
a match starts at a literal http:// or https://, requires at least one
following non-whitespace character, and (all trailing groups being optional
and the \S+ greedy) extends over the maximal non-whitespace run. -/

/-- Attempt a URI_REGEX match that starts at the head of the list. -/
def uriAt (l : List Char) : Option (List Char) :=
  if ("http://".toList.isPrefixOf l ∧
        ((l.drop 7).takeWhile (fun c => !wsB c)) ≠ []) ∨
     ("https://".toList.isPrefixOf l ∧
        ((l.drop 8).takeWhile (fun c => !wsB c)) ≠ []) then
    some (l.takeWhile (fun c => !wsB c))
  else none

/-- URI_REGEX.find: the leftmost match. -/
def uriFind : List Char → Option (List Char)
  | [] => none
  | c :: t =>
    match uriAt (c :: t) with
    | some m => some m
    | none => uriFind t

/-- The character class of VERSION_REGEX = \([-\w+\d+\.! ]+\):
word characters, digits plus '-', '+', '.', '!' and space. -/
def vChar (c : Char) : Bool :=
  c.isAlpha || isDig c || c == '_' || c == '-' || c == '+' ||
    c == '.' || c == '!' || c == ' '

/-- Attempt a VERSION_REGEX match at the head of the list: a '(' followed by
a non-empty greedy run of class characters followed by ')'.  Returns the
matched text and its length. -/
def parenAt : List Char → Option (List Char × Nat)
  | '(' :: r =>
    let run := r.takeWhile vChar
    if run.isEmpty then none
    else
      match r.drop run.length with
      | ')' :: _ => some ('(' :: (run ++ [')']), run.length + 2)
      | _ => none
  | _ => none

/-- VERSION_REGEX.find_iter: successive non-overlapping matches, scanning
left to right (`skip` counts characters of a found match still being
consumed). -/
def parenMatches : List Char → Nat → List (List Char)
  | [], _ => []
  | _ :: t, skip + 1 => parenMatches t skip
  | c :: t, 0 =>
    match parenAt (c :: t) with
    | some (m, len) => m :: parenMatches t (len - 1)
    | none => parenMatches t 0

/-- VERSION_REGEX.find_iter(line).last(). -/
def versionFindLast (l : List Char) : Option (List Char) :=
  (parenMatches l 0).getLast?

/-! ### remote.rs: data model and version parsing -/

inductive RemoteVersion where
  | JavaVersion (vendor usage version dist status id : List Char)
  | OtherVersion (value : List Char)
deriving DecidableEq

structure RemoteCandidate where
  name : List Char
  binary_name : List Char
  description : List Char
  homepage : List Char
  default_version : List Char
  versions : List RemoteVersion
deriving DecidableEq

/-- RemoteVersion::id (remote.rs lines 84-89). -/
def RemoteVersion.id : RemoteVersion → List Char
  | .JavaVersion _ _ _ _ _ id => id
  | .OtherVersion value => value

/-- RemoteVersion::get_status_and_usage (remote.rs lines 106-123). -/
def RemoteVersion.get_status_and_usage (_self : RemoteVersion) (local_versions : VMap)
    (version : List Char) : List Char × List Char :=
  (if containsKey local_versions version then "installed".toList else [],
   if (lookupMap local_versions version).getD false then "current".toList else [])

/-- RemoteVersion::from_str (remote.rs lines 126-146); total (its only
unwrap_or_default is on the infallible String::from_str). -/
def RemoteVersion.from_strL (input : List Char) : RemoteVersion :=
  if containsSub " | ".toList input then
    let parts := (splitOnCharTerm '|' input).map trimChars
    .JavaVersion (string_at parts 0) (string_at parts 1) (string_at parts 2)
      (string_at parts 3) (string_at parts 4) (string_at parts 5)
  else .OtherVersion (trimChars input)

/-- State threaded through the line loop of RemoteCandidate::from_str. -/
structure CandState where
  name : List Char
  binary_name : List Char
  description : List Char
  homepage : List Char
  default_version : List Char
deriving DecidableEq

/-- The line loop of RemoteCandidate::from_str (remote.rs lines 166-191).
The only possible panic (`none`) is the `unwrap()` on
`line.split_whitespace().last()`. -/
def candLoop : List (List Char) → CandState → Option CandState
  | [], st => some st
  | line :: rest, st =>
    if line.isEmpty then candLoop rest st
    else if (uriFind line).isSome then
      let uri := (uriFind line).getD "failed to extract the homepage".toList
      let version := (versionFindLast line).getD "(unknown)".toList
      let idx := (findSubstr version line).getD line.length
      candLoop rest
        { st with
          homepage := st.homepage ++ uri
          default_version := st.default_version ++ version
          name := line.take (usizeSub idx 1) }
    else if containsSub "$ sdk install".toList line then
      match (splitWhitespaceL line).getLast? with
      | some tok => candLoop rest { st with binary_name := st.binary_name ++ tok }
      | none => none
    else candLoop rest { st with description := st.description ++ line ++ [' '] }

/-- RemoteCandidate::from_str (remote.rs lines 148-201). -/
def RemoteCandidate.from_strL (input : List Char) : Option RemoteCandidate :=
  (candLoop (rustLines input) (CandState.mk [] [] [] [] [])).map
    (fun st => RemoteCandidate.mk st.name st.binary_name st.description
      st.homepage st.default_version [])

def RemoteCandidate.from_str (input : String) : Option RemoteCandidate :=
  RemoteCandidate.from_strL input.toList

/-- The 31-dash needle of parse_candidates (remote.rs line 281). -/
def dash31 : List Char := "-------------------------------".toList

def dashRun (k : Nat) : List Char := List.replicate k '-'

/-- parse_candidates (remote.rs lines 280-292).  `none` models a panic of
one of the `unwrap()`s on RemoteCandidate::from_str. -/
def parse_candidates (s : String) : Option (List RemoteCandidate) :=
  let input := s.toList
  let idx := (findSubstr dash31 input).getD 0
  let candidates := input.drop idx
  let pattern := candidates.takeWhile (fun c => c == '-')
  mapOpt RemoteCandidate.from_strL
    (((rustSplitTerminator pattern (candidates.drop pattern.length)).filter
        (fun x => !(trimChars x).isEmpty)))

/-! ### Natural (alphanumeric) comparison

Modelled from the spec: the alphanumeric_sort crate used by
parse_available_versions is an external dependency whose source is not part
of this repository; the spec describes it as "a comparator that orders
numeric runs by numeric value rather than lexical character order".  A
string is tokenized into maximal digit runs (compared by value, ties broken
by the raw digits) and single other characters (compared by code point). -/

inductive SortKey where
  | num (val : Nat) (raw : List Char)
  | ch (c : Char)
deriving DecidableEq

def digitsVal : List Char → Nat → Nat
  | [], acc => acc
  | c :: t, acc => digitsVal t (acc * 10 + (c.toNat - 48))

def mkNum (run : List Char) : SortKey :=
  .num (digitsVal run 0) run

/-- Tokenizer; `acc` is the reversed digit run currently being read. -/
def tokGo : List Char → List Char → List SortKey
  | [], acc => if acc.isEmpty then [] else [mkNum acc.reverse]
  | c :: t, acc =>
    if isDig c then tokGo t (c :: acc)
    else if acc.isEmpty then .ch c :: tokGo t []
    else mkNum acc.reverse :: .ch c :: tokGo t []

def tokenize (l : List Char) : List SortKey := tokGo l []

def cmpNat (a b : Nat) : Ordering :=
  if a < b then .lt else if b < a then .gt else .eq

def cmpCharList : List Char → List Char → Ordering
  | [], [] => .eq
  | [], _ :: _ => .lt
  | _ :: _, [] => .gt
  | a :: as, b :: bs => (cmpNat a.toNat b.toNat).then (cmpCharList as bs)

def keyCmp : SortKey → SortKey → Ordering
  | .num v r, .num w s => (cmpNat v w).then (cmpCharList r s)
  | .num _ r, .ch c => cmpNat (r.headD ' ').toNat c.toNat
  | .ch c, .num _ s => cmpNat c.toNat (s.headD ' ').toNat
  | .ch c, .ch d => cmpNat c.toNat d.toNat

def lexCmp : List SortKey → List SortKey → Ordering
  | [], [] => .eq
  | [], _ :: _ => .lt
  | _ :: _, [] => .gt
  | a :: as, b :: bs => (keyCmp a b).then (lexCmp as bs)

/-- alphanumeric_sort::compare_str (modelled from the spec, see above). -/
def natCmp (a b : List Char) : Ordering :=
  lexCmp (tokenize a) (tokenize b)

/-- The sort relation of parse_available_versions:
`strs.sort_by(|s1, s2| alphanumeric_sort::compare_str(s2, s1))` sorts
ascending with respect to the reversed comparison, i.e. descending
alphanumeric order. -/
def ascRel (s1 s2 : List Char) : Prop :=
  natCmp s2 s1 ≠ Ordering.gt

instance : DecidableRel ascRel := fun s1 s2 =>
  inferInstanceAs (Decidable (natCmp s2 s1 ≠ Ordering.gt))

/-! ### remote.rs: version list parsing -/

/-- Vec::join(sep): the segments interspersed with the separator. -/
def interc (sep : List Char) : List (List Char) → List Char
  | [] => []
  | [b] => b
  | b :: bs => b ++ sep ++ interc sep bs

/-- parse_available_java_versions (remote.rs lines 312-319). -/
def parse_available_java_versionsL (input : List Char) : List RemoteVersion :=
  (((rustLines input).drop 5).takeWhile
      (fun line => !("===".toList.isPrefixOf line))).map RemoteVersion.from_strL

/-- parse_available_versions (remote.rs lines 294-310).  Rust's stable
sort_by is modelled by the stable List.insertionSort. -/
def parse_available_versionsL (input : List Char) : List RemoteVersion :=
  if containsSub "Available Java Versions".toList input then
    parse_available_java_versionsL input
  else
    let versions :=
      interc " ".toList
        (((rustLines input).drop 3).takeWhile
          (fun line => !("===".toList.isPrefixOf line)))
    let strs := splitWhitespaceL versions
    (List.insertionSort ascRel strs).map RemoteVersion.from_strL

def parse_available_versions (s : String) : List RemoteVersion :=
  parse_available_versionsL s.toList

/-! ### Claim-side algorithms

For refinement claims the following definitions transcribe the claim's own
words (not the source); they exist to be compared against the source
embeddings above. -/

/-- Claim C5's algorithm as stated: locate the first run of '-' characters
anywhere in the text, use that run's exact length as the sentinel, discard
the preamble, split, drop whitespace-only blocks. -/
def parse_candidates_claimC5 (s : String) : Option (List RemoteCandidate) :=
  let input := s.toList
  match findSubstr ['-'] input with
  | none => some []
  | some i =>
    let run := (input.drop i).takeWhile (fun c => c == '-')
    mapOpt RemoteCandidate.from_strL
      ((rustSplitTerminator run (input.drop (i + run.length))).filter
        (fun x => !(trimChars x).isEmpty))

/-- Claim C6's generic algorithm as stated: skip 3 lines, take lines up to
the first line starting with "=" (a single equals sign), tokenize, sort
descending. -/
def parse_available_versions_claimC6 (s : String) : List RemoteVersion :=
  let versions :=
    interc " ".toList
      (((rustLines s.toList).drop 3).takeWhile
        (fun line => !("=".toList.isPrefixOf line)))
  (List.insertionSort ascRel (splitWhitespaceL versions)).map
    RemoteVersion.OtherVersion

/-- Claim C7's Java algorithm as stated: skip 5 lines and split each
retained row on '|' into whitespace-trimmed fields of a JavaVersion,
missing fields defaulting to the empty string. -/
def parse_available_java_versions_claimC7 (s : String) : List RemoteVersion :=
  (((rustLines s.toList).drop 5).takeWhile
      (fun line => !("===".toList.isPrefixOf line))).map
    (fun row =>
      let parts := (splitOnCharTerm '|' row).map trimChars
      RemoteVersion.JavaVersion (string_at parts 0) (string_at parts 1)
        (string_at parts 2) (string_at parts 3) (string_at parts 4)
        (string_at parts 5))

/-! ### Association map lemmas -/

theorem lookup_insertMap_self (m : VMap) (k : List Char) (v : Bool) :
    lookupMap (insertMap m k v) k = some v := by
  induction m with
  | nil => simp [insertMap, lookupMap]
  | cons p t ih =>
    by_cases h : p.1 = k
    · simp [insertMap, h, lookupMap]
    · simp [insertMap, h, lookupMap, ih]

theorem lookup_insertMap_ne (m : VMap) (k : List Char) (v : Bool)
    (key : List Char) (h : k ≠ key) :
    lookupMap (insertMap m k v) key = lookupMap m key := by
  induction m with
  | nil => simp [insertMap, lookupMap, h]
  | cons p t ih =>
    by_cases hp : p.1 = k
    · simp [insertMap, hp, lookupMap, h]
    · simp [insertMap, hp, lookupMap, ih]

theorem lookup_buildVersions (ids : List (List Char)) :
    ∀ (m : VMap) (id : List Char),
      lookupMap (buildVersions ids m) id =
        if ids.count id = 0 then lookupMap m id
        else if containsKey m id then some true
        else if 2 ≤ ids.count id then some true
        else some false := by
  induction ids with
  | nil => intro m id; simp [buildVersions]
  | cons id' t ih =>
    intro m id
    by_cases hid : id' = id
    · subst hid
      rw [buildVersions, ih]
      have hcount : (id' :: t).count id' = t.count id' + 1 :=
        List.count_cons_self id' t
      have hck : containsKey (insertMap m id' (containsKey m id')) id' = true := by
        simp [containsKey, lookup_insertMap_self]
      rcases Nat.eq_zero_or_pos (t.count id') with hz | hpos
      · rw [hz] at hcount ⊢
        simp only [hcount, hck]
        have : lookupMap (insertMap m id' (containsKey m id')) id' =
            some (containsKey m id') := lookup_insertMap_self m id' _
        rw [this]
        cases hc : containsKey m id' <;> simp [hc]
      · have h1 : ¬ t.count id' = 0 := Nat.pos_iff_ne_zero.mp hpos
        have h2 : 2 ≤ t.count id' + 1 := by omega
        have h3 : ¬ (t.count id' + 1 = 0) := by omega
        simp [hcount, hck, h1, h2, h3]
    · rw [buildVersions, ih]
      have hcount : (id' :: t).count id = t.count id :=
        List.count_cons_of_ne (fun hh => hid hh.symm) t
      have hlk : lookupMap (insertMap m id' (containsKey m id')) id =
          lookupMap m id := lookup_insertMap_ne m id' _ id hid
      have hcc : containsKey (insertMap m id' (containsKey m id')) id =
          containsKey m id := by
        simp only [containsKey]
        rw [lookup_insertMap_ne m id' ((lookupMap m id').isSome) id hid]
      rw [hcount, hlk, hcc]

theorem scan_versions_pure (ids : List (List Char)) :
    ∀ m : VMap,
      scan_versions (ids.map (fun i => Except.ok ⟨false, Except.ok i⟩)) m =
        Except.ok (buildVersions ids m) := by
  induction ids with
  | nil => intro m; simp [scan_versions, buildVersions]
  | cons id t ih => intro m; simp [scan_versions, buildVersions, ih]

/-- Claim C1: walking a candidate directory's entries in listing order, the
first entry resolving to a canonical identifier records it as false, a
repeated canonical identifier overwrites the value to true (an identifier
maps to false iff seen exactly once and to true iff seen at least twice);
in particular a directory with a version directory `17.0.2-tem` and a
`current` symlink resolving to it yields the one-entry map
17.0.2-tem ↦ true. -/
theorem claim_C1_local_scan_current_flag :
    (∀ (m : VMap) (id : List Char),
        (containsKey m id = false →
          lookupMap (insertMap m id (containsKey m id)) id = some false) ∧
        (containsKey m id = true →
          lookupMap (insertMap m id (containsKey m id)) id = some true)) ∧
    (∀ (ids : List (List Char)) (m : VMap),
        scan_versions (ids.map (fun i => Except.ok ⟨false, Except.ok i⟩)) m =
          Except.ok (buildVersions ids m)) ∧
    (∀ (ids : List (List Char)) (id : List Char),
        (lookupMap (buildVersions ids []) id = some false ↔ ids.count id = 1) ∧
        (lookupMap (buildVersions ids []) id = some true ↔ 2 ≤ ids.count id)) ∧
    scan_versions
        [Except.ok ⟨false, Except.ok "17.0.2-tem".toList⟩,
         Except.ok ⟨false, Except.ok "17.0.2-tem".toList⟩] [] =
      Except.ok [("17.0.2-tem".toList, true)] := by
  refine ⟨?_, fun ids => scan_versions_pure ids, ?_, by decide⟩
  · intro m id
    constructor
    · intro h
      rw [h]
      exact lookup_insertMap_self m id false
    · intro h
      rw [h]
      exact lookup_insertMap_self m id true
  · intro ids id
    have hc := lookup_buildVersions ids [] id
    simp only [lookupMap, containsKey, Option.isSome_none, Bool.false_eq_true,
      if_false] at hc
    rw [hc]
    constructor
    · by_cases h0 : ids.count id = 0
      · simp [h0]
      · by_cases h1 : ids.count id = 1
        · have h2 : ¬ 2 ≤ ids.count id := by omega
          simp [h0, h1, h2]
        · have h2 : 2 ≤ ids.count id := by omega
          simp [h0, h1, h2]
    · by_cases h0 : ids.count id = 0
      · have h2 : ¬ 2 ≤ ids.count id := by omega
        simp [h0, h2]
      · by_cases h2 : 2 ≤ ids.count id
        · simp [h0, h2]
        · simp [h0, h2]

/-- Witness for claim C1: applying the step characterization at a fresh
key of the empty map. -/
theorem claim_C1_witness :
    lookupMap
        (insertMap ([] : VMap) "17.0.2-tem".toList
          (containsKey ([] : VMap) "17.0.2-tem".toList)) "17.0.2-tem".toList =
      some false :=
  (claim_C1_local_scan_current_flag.1 [] "17.0.2-tem".toList).1 rfl

/-! ### Claim C2: error isolation during the local scan -/

theorem build_candidates_append (xs ys : List (Except IoErr CandEntryFs)) :
    ∀ acc acc', build_candidates xs acc = .ok acc' →
      build_candidates (xs ++ ys) acc = build_candidates ys acc' := by
  induction xs with
  | nil =>
    intro acc acc' h
    simp only [build_candidates] at h
    cases h
    simp
  | cons x t ih =>
    intro acc acc' h
    cases x with
    | error e =>
      rw [build_candidates] at h
      exact Except.noConfusion h
    | ok c =>
      rw [List.cons_append]
      by_cases hf : c.is_file = true
      · simp only [build_candidates, hf, if_true] at h ⊢
        exact ih acc acc' h
      · cases hs : c.sub with
        | error e =>
          simp [build_candidates, hf, hs] at h
        | ok entries =>
          cases hm : scan_versions entries [] with
          | error e =>
            simp [build_candidates, hf, hs, hm] at h
          | ok m =>
            simp only [build_candidates, hf, hs, hm] at h ⊢
            simp only [if_false, Bool.false_eq_true, ite_false] at h ⊢
            exact ih _ _ h

/-- A concrete root with one readable candidate, one whose subtree read
fails, and another readable candidate. -/
def fsC2 : Except IoErr (List (Except IoErr CandEntryFs)) :=
  Except.ok
    [Except.ok (CandEntryFs.mk "java".toList false
        (Except.ok [Except.ok (VersionEntryFs.mk false
          (Except.ok "17.0.2-tem".toList))])),
     Except.ok (CandEntryFs.mk "maven".toList false
        (Except.error "permission denied")),
     Except.ok (CandEntryFs.mk "gradle".toList false
        (Except.ok [Except.ok (VersionEntryFs.mk false
          (Except.ok "8.0".toList))]))]

/-- Counterexample to claim C2 as stated: with one unreadable candidate
subtree between two readable ones, the scan returns the io error — it does
not return the records of the readable siblings. -/
theorem claim_C2_counterexample :
    retrieve_local_candidates fsC2 = Except.error "permission denied" ∧
    retrieve_local_candidates fsC2 ≠
      Except.ok
        [LocalCandidate.mk "java".toList [("17.0.2-tem".toList, false)],
         LocalCandidate.mk "gradle".toList [("8.0".toList, false)]] := by
  constructor
  · decide
  · decide

/-- Claim C2 (amended): an io failure while reading one candidate's subtree
aborts the whole scan — after any prefix of successfully processed
candidates, a directory entry whose subtree read fails makes
retrieve_local_candidates return that error instead of any partial
result. -/
theorem claim_C2_scan_aborts_on_subtree_error
    (pre : List (Except IoErr CandEntryFs)) (bad : CandEntryFs)
    (post : List (Except IoErr CandEntryFs)) (acc : List LocalCandidate)
    (e : IoErr) (hpre : build_candidates pre [] = .ok acc)
    (hf : bad.is_file = false) (hsub : bad.sub = .error e) :
    retrieve_local_candidates (.ok (pre ++ .ok bad :: post)) =
      Except.error e := by
  have hr : retrieve_local_candidates (.ok (pre ++ .ok bad :: post)) =
      build_candidates (pre ++ .ok bad :: post) [] := rfl
  rw [hr, build_candidates_append pre (.ok bad :: post) [] acc hpre]
  rw [build_candidates, if_neg (by rw [hf]; exact Bool.false_ne_true), hsub]

/-- Witness for the amended claim C2, at the concrete filesystem fsC2. -/
theorem claim_C2_amended_witness :
    retrieve_local_candidates
        (.ok
          ([Except.ok (CandEntryFs.mk "java".toList false
              (Except.ok [Except.ok (VersionEntryFs.mk false
                (Except.ok "17.0.2-tem".toList))]))] ++
            Except.ok (CandEntryFs.mk "maven".toList false
              (Except.error "permission denied")) ::
            [Except.ok (CandEntryFs.mk "gradle".toList false
              (Except.ok [Except.ok (VersionEntryFs.mk false
                (Except.ok "8.0".toList))]))])) =
      Except.error "permission denied" :=
  claim_C2_scan_aborts_on_subtree_error _
    (CandEntryFs.mk "maven".toList false (Except.error "permission denied")) _
    [LocalCandidate.mk "java".toList [("17.0.2-tem".toList, false)]]
    "permission denied" (by decide) rfl rfl

/-! ### Claim C3: the pure parsers are total (no panics) -/

theorem subset_of_isPrefixOf (p : List Char) :
    ∀ l : List Char, p.isPrefixOf l = true → ∀ c ∈ p, c ∈ l := by
  induction p with
  | nil => intro l _ c hc; exact absurd hc (List.not_mem_nil c)
  | cons a p' ih =>
    intro l h c hc
    cases l with
    | nil => exact absurd h (by simp [List.isPrefixOf])
    | cons b t =>
      simp only [List.isPrefixOf, Bool.and_eq_true, beq_iff_eq] at h
      rcases List.mem_cons.mp hc with hca | hcp
      · exact List.mem_cons.mpr (Or.inl (hca.trans h.1))
      · exact List.mem_cons.mpr (Or.inr (ih t h.2 c hcp))

theorem mem_of_findSubstr (pat : List Char) :
    ∀ (l : List Char) (i : Nat), findSubstr pat l = some i →
      ∀ c ∈ pat, c ∈ l := by
  intro l
  induction l with
  | nil =>
    intro i h c hc
    cases pat with
    | nil => exact absurd hc (List.not_mem_nil c)
    | cons a p' => exact absurd h (by simp [findSubstr, List.isEmpty])
  | cons b t ih =>
    intro i h c hc
    by_cases hp : pat.isPrefixOf (b :: t) = true
    · exact subset_of_isPrefixOf pat (b :: t) hp c hc
    · rw [findSubstr, if_neg hp] at h
      rcases Option.map_eq_some'.mp h with ⟨j, hj, _⟩
      exact List.mem_cons.mpr (Or.inr (ih j hj c hc))

theorem splitWhitespaceGo_ne_nil :
    ∀ (l : List Char) (acc : List Char),
      (acc ≠ [] ∨ ∃ c ∈ l, wsB c = false) → splitWhitespaceGo l acc ≠ [] := by
  intro l
  induction l with
  | nil =>
    intro acc h
    rcases h with h | ⟨c, hc, _⟩
    · have : acc.isEmpty = false := by
        cases acc
        · exact absurd rfl h
        · rfl
      simp [splitWhitespaceGo, this]
    · exact absurd hc (List.not_mem_nil c)
  | cons c t ih =>
    intro acc h
    rw [splitWhitespaceGo]
    by_cases hw : wsB c = true
    · rw [if_pos hw]
      by_cases ha : acc.isEmpty = true
      · rw [if_pos ha]
        apply ih [] (Or.inr ?_)
        rcases h with hne | ⟨d, hd, hdw⟩
        · exact absurd (List.isEmpty_iff.mp ha) hne
        · rcases List.mem_cons.mp hd with rfl | hdt
          · exact absurd hw (by rw [hdw]; exact Bool.false_ne_true)
          · exact ⟨d, hdt, hdw⟩
      · rw [if_neg ha]
        exact List.cons_ne_nil _ _
    · rw [if_neg hw]
      apply ih (c :: acc) (Or.inl (List.cons_ne_nil c acc))

theorem getLast?_some_of_ne_nil {α : Type} :
    ∀ l : List α, l ≠ [] → ∃ a, l.getLast? = some a := by
  intro l
  induction l with
  | nil => intro h; exact absurd rfl h
  | cons a t ih =>
    intro _
    cases t with
    | nil => exact ⟨a, rfl⟩
    | cons b t' =>
      rcases ih (List.cons_ne_nil b t') with ⟨x, hx⟩
      exact ⟨x, by rw [List.getLast?_cons_cons]; exact hx⟩

theorem candLoop_isSome (lines : List (List Char)) :
    ∀ st, (candLoop lines st).isSome = true := by
  induction lines with
  | nil => intro st; rfl
  | cons line rest ih =>
    intro st
    rw [candLoop]
    by_cases h1 : line.isEmpty = true
    · rw [if_pos h1]; exact ih st
    · rw [if_neg h1]
      by_cases h2 : (uriFind line).isSome = true
      · rw [if_pos h2]; exact ih _
      · rw [if_neg h2]
        by_cases h3 : containsSub "$ sdk install".toList line = true
        · rw [if_pos h3]
          rcases Option.isSome_iff_exists.mp h3 with ⟨i, hi⟩
          have hmem : ('$' : Char) ∈ line :=
            mem_of_findSubstr _ line i hi '$' (by decide)
          have hne : splitWhitespaceL line ≠ [] :=
            splitWhitespaceGo_ne_nil line []
              (Or.inr ⟨'$', hmem, by decide⟩)
          rcases getLast?_some_of_ne_nil _ hne with ⟨tok, htok⟩
          rw [htok]
          exact ih _
        · rw [if_neg h3]; exact ih _

theorem from_strL_isSome (input : List Char) :
    (RemoteCandidate.from_strL input).isSome = true := by
  rcases Option.isSome_iff_exists.mp
      (candLoop_isSome (rustLines input) (CandState.mk [] [] [] [] []))
    with ⟨st, hst⟩
  unfold RemoteCandidate.from_strL
  rw [hst]
  rfl

theorem mapOpt_isSome {α β : Type} (f : α → Option β) :
    ∀ l : List α, (∀ a ∈ l, (f a).isSome = true) →
      ∃ bs, mapOpt f l = some bs ∧ bs.length = l.length := by
  intro l
  induction l with
  | nil => intro _; exact ⟨[], rfl, rfl⟩
  | cons a t ih =>
    intro h
    rcases Option.isSome_iff_exists.mp (h a (List.mem_cons_self a t)) with ⟨b, hb⟩
    rcases ih (fun x hx => h x (List.mem_cons_of_mem a hx)) with ⟨bs, hbs, hlen⟩
    refine ⟨b :: bs, ?_, by simp [hlen]⟩
    rw [mapOpt, hb, hbs]

/-- Claim C3: the pure parsing functions are total over arbitrary string
input — parse_candidates never panics (every unwrap inside
RemoteCandidate::from_str is safe), and every catalog block parses to some
record (malformed blocks degrade to records with empty fields rather than
aborting). -/
theorem claim_C3_parsers_never_panic :
    (∀ s : String, (parse_candidates s).isSome = true) ∧
    (∀ block : List Char, (RemoteCandidate.from_strL block).isSome = true) := by
  constructor
  · intro s
    unfold parse_candidates
    rcases mapOpt_isSome RemoteCandidate.from_strL _
        (fun a _ => from_strL_isSome a) with ⟨bs, hbs, _⟩
    rw [hbs]
    rfl
  · exact from_strL_isSome

/-! ### Claim C4: identity line with version token at offset 0 -/

theorem splitOnCharGo_no_sep (sep : Char) :
    ∀ (l : List Char) (acc : List Char), (∀ c ∈ l, c ≠ sep) →
      splitOnCharGo sep l acc = [acc.reverse ++ l] := by
  intro l
  induction l with
  | nil => intro acc _; simp [splitOnCharGo]
  | cons c t ih =>
    intro acc h
    have hc : (c == sep) = false :=
      beq_eq_false_iff_ne.mpr (h c (List.mem_cons_self c t))
    rw [splitOnCharGo, if_neg (by rw [hc]; exact Bool.false_ne_true)]
    rw [ih (c :: acc) (fun d hd => h d (List.mem_cons_of_mem c hd))]
    simp

/-- A non-empty line without newline is its own single Rust line. -/
theorem rustLines_single (line : List Char) (hne : line ≠ [])
    (hnl : ∀ c ∈ line, c ≠ '\n') : rustLines line = [line] := by
  have hsplit : splitOnChar '\n' line = [line] := by
    unfold splitOnChar
    rw [splitOnCharGo_no_sep '\n' line [] hnl]
    rfl
  have hcond : ¬ (([line] : List (List Char)).getLast? = some []) := by
    intro h
    exact hne (Option.some.inj h)
  unfold rustLines
  rw [hsplit, if_neg hcond]
  rfl

/-- Counterexample to claim C4: on the block "(1.0) http://example.com",
whose identity line's version token starts at offset 0, the parsed record's
display name is the entire line — it is not empty. -/
theorem claim_C4_counterexample :
    (RemoteCandidate.from_str "(1.0) http://example.com").map
        (fun c => c.name) =
      some "(1.0) http://example.com".toList ∧
    "(1.0) http://example.com".toList ≠ ([] : List Char) := by
  constructor
  · decide
  · decide

/-- Claim C4 (amended): on a single-line block whose identity line's version
token starts at character offset 0, parsing does not crash but the record's
display name is the entire line (the usize `idx - 1` wraps around, so
`take` collects every character), rather than the empty string. -/
theorem claim_C4_offset_zero_makes_name_whole_line
    (line u v : List Char) (hu : uriFind line = some u)
    (hv : versionFindLast line = some v) (h0 : findSubstr v line = some 0)
    (hlen : line.length < U64) (hnl : ∀ c ∈ line, c ≠ '\n') :
    RemoteCandidate.from_strL line =
      some (RemoteCandidate.mk line [] [] u v []) := by
  have hne : line ≠ [] := by
    intro h
    rw [h] at hu
    exact Option.noConfusion hu
  have hie : line.isEmpty = false := by
    cases line
    · exact absurd rfl hne
    · rfl
  have hwrap : usizeSub 0 1 = U64 - 1 := by decide
  have htake : line.take (usizeSub 0 1) = line := by
    rw [hwrap]
    refine List.take_of_length_le ?_
    have hU : U64 = 18446744073709551616 := by decide
    omega
  unfold RemoteCandidate.from_strL
  rw [rustLines_single line hne hnl]
  rw [candLoop]
  rw [if_neg (by rw [hie]; exact Bool.false_ne_true)]
  rw [if_pos (show (uriFind line).isSome = true by rw [hu]; rfl)]
  rw [candLoop]
  simp only [hu, hv, h0, Option.getD_some, htake]
  rfl

/-- Witness for the amended claim C4 at the concrete offset-0 block. -/
theorem claim_C4_amended_witness :
    RemoteCandidate.from_strL "(1.0) http://example.com".toList =
      some (RemoteCandidate.mk "(1.0) http://example.com".toList [] []
        "http://example.com".toList "(1.0)".toList []) :=
  claim_C4_offset_zero_makes_name_whole_line
    "(1.0) http://example.com".toList "http://example.com".toList
    "(1.0)".toList (by decide) (by decide) (by decide) (by decide) (by decide)

/-! ### Claim C5: block splitting in parse_candidates -/

theorem isPrefixOf_append_self :
    ∀ a b : List Char, a.isPrefixOf (a ++ b) = true := by
  intro a
  induction a with
  | nil => intro b; simp [List.isPrefixOf]
  | cons c t ih => intro b; simp [List.isPrefixOf, ih b]

theorem dash31_eq : dash31 = dashRun 31 := by decide

theorem dashRun_cons (k : Nat) (hk : 1 ≤ k) :
    dashRun k = '-' :: dashRun (k - 1) := by
  cases k with
  | zero => omega
  | succ n => rfl

theorem findSubstr_append_dash :
    ∀ (pre : List Char) (k : Nat) (rest : List Char),
      (∀ c ∈ pre, c ≠ '-') → 31 ≤ k →
      findSubstr dash31 (pre ++ dashRun k ++ rest) = some pre.length := by
  intro pre
  induction pre with
  | nil =>
    intro k rest _ hk
    have hsplitRun : dashRun k = dashRun 31 ++ dashRun (k - 31) := by
      unfold dashRun
      rw [show k = 31 + (k - 31) by omega, List.replicate_add]
      simp
    have hpref : dash31.isPrefixOf (dashRun k ++ rest) = true := by
      rw [hsplitRun, dash31_eq, List.append_assoc]
      exact isPrefixOf_append_self (dashRun 31) _
    rw [List.nil_append]
    rw [dashRun_cons k (by omega)] at hpref ⊢
    rw [List.cons_append, findSubstr,
      if_pos (by rw [← List.cons_append]; exact hpref)]
    rfl
  | cons c pre' ih =>
    intro k rest hpre hk
    have hc : c ≠ '-' := hpre c (List.mem_cons_self c pre')
    have hnp : dash31.isPrefixOf
        (c :: (pre' ++ dashRun k ++ rest)) = false := by
      rw [dash31_eq, dashRun_cons 31 (by omega)]
      simp [List.isPrefixOf]
      intro h
      exact absurd h.symm hc
    have hfs : findSubstr dash31 (c :: (pre' ++ dashRun k ++ rest)) =
        (findSubstr dash31 (pre' ++ dashRun k ++ rest)).map
          (fun n => n + 1) := by
      rw [findSubstr, if_neg (by rw [hnp]; exact Bool.false_ne_true)]
    rw [show (c :: pre') ++ dashRun k ++ rest =
        c :: (pre' ++ dashRun k ++ rest) by simp]
    rw [hfs, ih k rest (fun d hd => hpre d (List.mem_cons_of_mem c hd)) hk]
    simp

theorem takeWhile_dashRun_append (k : Nat) (rest : List Char)
    (hrest : rest = [] ∨ ∃ c t, rest = c :: t ∧ c ≠ '-') :
    (dashRun k ++ rest).takeWhile (fun c => c == '-') = dashRun k := by
  induction k with
  | zero =>
    rcases hrest with h | ⟨c, t, h, hc⟩
    · rw [h]; rfl
    · rw [h]
      unfold dashRun
      rw [List.replicate_zero, List.nil_append, List.takeWhile_cons_of_neg]
      simp [hc]
  | succ n ih =>
    unfold dashRun
    rw [List.replicate_succ, List.cons_append, List.takeWhile_cons_of_pos]
    · unfold dashRun at ih
      rw [ih]
    · rfl

theorem splitGo_no_sep (d : Char) (sep' : List Char) :
    ∀ (b cur : List Char), (∀ c ∈ b, c ≠ d) →
      splitGo (d :: sep') b cur 0 = [cur.reverse ++ b] := by
  intro b
  induction b with
  | nil => intro cur _; simp [splitGo]
  | cons c t ih =>
    intro cur h
    have hc : c ≠ d := h c (List.mem_cons_self c t)
    have hnp : (d :: sep').isPrefixOf (c :: t) = false := by
      simp [List.isPrefixOf]
      intro hd
      exact absurd hd.symm hc
    rw [splitGo, if_neg (by rw [hnp]; exact Bool.false_ne_true)]
    rw [ih (c :: cur) (fun e he => h e (List.mem_cons_of_mem c he))]
    simp

theorem splitGo_skip (sep : List Char) :
    ∀ (x rest cur : List Char),
      splitGo sep (x ++ rest) cur x.length = splitGo sep rest cur 0 := by
  intro x
  induction x with
  | nil => intro rest cur; rfl
  | cons c x' ih =>
    intro rest cur
    rw [List.cons_append, List.length_cons, splitGo]
    exact ih rest cur

theorem splitGo_through_block (d : Char) (sep' : List Char) :
    ∀ (b rest cur : List Char), (∀ c ∈ b, c ≠ d) →
      splitGo (d :: sep') (b ++ ((d :: sep') ++ rest)) cur 0 =
        (cur.reverse ++ b) :: splitGo (d :: sep') rest [] 0 := by
  intro b
  induction b with
  | nil =>
    intro rest cur _
    rw [List.nil_append, List.cons_append, splitGo]
    rw [if_pos (by
      rw [← List.cons_append]
      exact isPrefixOf_append_self (d :: sep') rest)]
    have hlen : (d :: sep').length - 1 = sep'.length := by simp
    rw [hlen, splitGo_skip (d :: sep') sep' rest []]
    simp
  | cons c b' ih =>
    intro rest cur h
    have hc : c ≠ d := h c (List.mem_cons_self c b')
    have hnp : (d :: sep').isPrefixOf
        (c :: (b' ++ ((d :: sep') ++ rest))) = false := by
      simp [List.isPrefixOf]
      intro hd
      exact absurd hd.symm hc
    rw [List.cons_append, splitGo,
      if_neg (by rw [hnp]; exact Bool.false_ne_true)]
    rw [ih rest (c :: cur) (fun e he => h e (List.mem_cons_of_mem c he))]
    simp

theorem splitGo_interc (d : Char) (sep' : List Char) :
    ∀ blocks : List (List Char), blocks ≠ [] →
      (∀ b ∈ blocks, ∀ c ∈ b, c ≠ d) →
      splitGo (d :: sep') (interc (d :: sep') blocks) [] 0 = blocks := by
  intro blocks
  induction blocks with
  | nil => intro h _; exact absurd rfl h
  | cons b bs ih =>
    intro _ hall
    cases bs with
    | nil =>
      show splitGo (d :: sep') (interc (d :: sep') [b]) [] 0 = [b]
      rw [show interc (d :: sep') [b] = b from rfl]
      rw [splitGo_no_sep d sep' b []
        (hall b (List.mem_cons_self b []))]
      rfl
    | cons b2 bs' =>
      have hinterc : interc (d :: sep') (b :: b2 :: bs') =
          b ++ ((d :: sep') ++ interc (d :: sep') (b2 :: bs')) := by
        rw [interc, List.append_assoc]
        intro h
        exact List.noConfusion h
      rw [hinterc]
      rw [splitGo_through_block d sep' b _ []
        (hall b (List.mem_cons_self b _))]
      have hres := ih (fun h => List.noConfusion h)
        (fun x hx => hall x (List.mem_cons_of_mem b hx))
      rw [hres]
      rfl

theorem mem_of_getLast? {α : Type} :
    ∀ (l : List α) (a : α), l.getLast? = some a → a ∈ l := by
  intro l
  induction l with
  | nil => intro a h; exact Option.noConfusion h
  | cons b t ih =>
    intro a h
    cases t with
    | nil => exact List.mem_cons.mpr (Or.inl (Option.some.inj h).symm)
    | cons c t' =>
      rw [List.getLast?_cons_cons] at h
      exact List.mem_cons.mpr (Or.inr (ih a h))

theorem dropTrailingEmpty_of_ne_nil (blocks : List (List Char))
    (h : ∀ b ∈ blocks, b ≠ []) : dropTrailingEmpty blocks = blocks := by
  unfold dropTrailingEmpty
  rw [if_neg]
  intro hc
  exact h [] (mem_of_getLast? blocks [] hc) rfl

theorem filter_of_all {α : Type} (p : α → Bool) :
    ∀ l : List α, (∀ a ∈ l, p a = true) → l.filter p = l := by
  intro l
  induction l with
  | nil => intro _; rfl
  | cons a t ih =>
    intro h
    rw [List.filter_cons, if_pos (h a (List.mem_cons_self a t))]
    rw [ih (fun x hx => h x (List.mem_cons_of_mem a hx))]

/-- Counterexample to claim C5 as stated: on a text whose first run of '-'
characters (the single dash in "xx-yy") is not the 31-dash divider the code
searches for, the code yields one record while the claim's first-dash-run
algorithm yields two. -/
theorem claim_C5_counterexample :
    (parse_candidates "xx-yy\n-------------------------------A").map
        List.length = some 1 ∧
    (parse_candidates_claimC5 "xx-yy\n-------------------------------A").map
        List.length = some 2 := by
  constructor
  · decide
  · decide

/-- Claim C5 (amended): parse_candidates locates the first occurrence of 31
consecutive '-' characters (not the first dash run), extends it to the full
run of '-' there, uses that run as the sentinel to split the rest into
blocks, discards the preamble, and for well-formed text with N
divider-separated blocks (dash-free, not whitespace-only) returns exactly N
records. -/
theorem claim_C5_divider_split_block_count
    (pre : List Char) (k : Nat) (blocks : List (List Char))
    (hpre : ∀ c ∈ pre, c ≠ '-') (hk : 31 ≤ k)
    (hblocks : ∀ b ∈ blocks, (∀ c ∈ b, c ≠ '-') ∧ trimChars b ≠ []) :
    ∃ rs,
      parse_candidates
          (String.mk (pre ++ dashRun k ++ interc (dashRun k) blocks)) =
        some rs ∧
      rs.length = blocks.length := by
  have htoList : (String.mk
      (pre ++ dashRun k ++ interc (dashRun k) blocks)).toList =
      pre ++ dashRun k ++ interc (dashRun k) blocks := rfl
  have hfind := findSubstr_append_dash pre k (interc (dashRun k) blocks)
    hpre hk
  have hbne : ∀ b ∈ blocks, b ≠ [] := by
    intro b hb hbnil
    have h2 := (hblocks b hb).2
    rw [hbnil] at h2
    exact h2 rfl
  have hrest : interc (dashRun k) blocks = [] ∨
      ∃ c t, interc (dashRun k) blocks = c :: t ∧ c ≠ '-' := by
    cases blocks with
    | nil => exact Or.inl rfl
    | cons b bs =>
      have hbne' : b ≠ [] := hbne b (List.mem_cons_self b bs)
      obtain ⟨c, t, hct⟩ : ∃ c t, b = c :: t := by
        cases b with
        | nil => exact absurd rfl hbne'
        | cons c t => exact ⟨c, t, rfl⟩
      have hcd : c ≠ '-' := (hblocks b (List.mem_cons_self b bs)).1 c
        (by rw [hct]; exact List.mem_cons_self c t)
      refine Or.inr ?_
      cases bs with
      | nil => exact ⟨c, t, by rw [show interc (dashRun k) [b] = b from rfl,
          hct], hcd⟩
      | cons b2 bs' =>
        refine ⟨c, t ++ dashRun k ++ interc (dashRun k) (b2 :: bs'), ?_, hcd⟩
        rw [interc]
        · rw [hct]
          simp
        · intro h
          exact List.noConfusion h
  have htw : (dashRun k ++ interc (dashRun k) blocks).takeWhile
      (fun c => c == '-') = dashRun k :=
    takeWhile_dashRun_append k _ hrest
  have hdrop1 : (pre ++ dashRun k ++ interc (dashRun k) blocks).drop
      pre.length = dashRun k ++ interc (dashRun k) blocks := by
    rw [List.append_assoc]
    exact List.drop_left pre _
  simp only [parse_candidates, htoList]
  rw [hfind]
  simp only [Option.getD_some]
  rw [hdrop1, htw, List.drop_left]
  have hne : (dashRun k).isEmpty = false := by
    rw [dashRun_cons k (by omega)]
    rfl
  cases blocks with
  | nil =>
    have h1 : rustSplitTerminator (dashRun k) (interc (dashRun k) []) = [] := by
      unfold rustSplitTerminator rustSplit
      rw [if_neg (by rw [hne]; exact Bool.false_ne_true)]
      rfl
    rw [h1]
    exact ⟨[], rfl, rfl⟩
  | cons b bs =>
    have hsep : dashRun k = '-' :: dashRun (k - 1) := dashRun_cons k (by omega)
    have hsg : splitGo (dashRun k) (interc (dashRun k) (b :: bs)) [] 0 =
        b :: bs := by
      rw [hsep]
      exact splitGo_interc '-' (dashRun (k - 1)) (b :: bs)
        (fun h => List.noConfusion h)
        (fun x hx c hc => (hblocks x hx).1 c hc)
    have hterm : rustSplitTerminator (dashRun k)
        (interc (dashRun k) (b :: bs)) = b :: bs := by
      unfold rustSplitTerminator rustSplit
      rw [if_neg (by rw [hne]; exact Bool.false_ne_true), hsg]
      exact dropTrailingEmpty_of_ne_nil (b :: bs) hbne
    rw [hterm]
    have hfilter : (b :: bs).filter (fun x => !(trimChars x).isEmpty) =
        b :: bs := by
      apply filter_of_all
      intro x hx
      have h2 := (hblocks x hx).2
      cases hq : trimChars x with
      | nil => exact absurd hq h2
      | cons y ys => rfl
    rw [hfilter]
    exact mapOpt_isSome RemoteCandidate.from_strL (b :: bs)
      (fun a _ => from_strL_isSome a)

/-- Witness for the amended claim C5: a preamble, a 31-dash divider and two
well-formed blocks produce exactly two records. -/
theorem claim_C5_amended_witness :
    ∃ rs,
      parse_candidates
          (String.mk ("Title: catalog\n".toList ++ dashRun 31 ++
            interc (dashRun 31)
              ["\nJava (17)\nblock one\n".toList,
               "\nGroovy (4)\nblock two\n".toList])) =
        some rs ∧
      rs.length = 2 :=
  claim_C5_divider_split_block_count "Title: catalog\n".toList 31
    ["\nJava (17)\nblock one\n".toList, "\nGroovy (4)\nblock two\n".toList]
    (by decide) (by decide) (by decide)

/-! ### Claim C6: properties of the descending alphanumeric sort -/

theorem cmpNat_lt_iff (a b : Nat) : cmpNat a b = .lt ↔ a < b := by
  unfold cmpNat
  by_cases h1 : a < b
  · simp [h1]
  · by_cases h2 : b < a <;> simp [h1, h2]

theorem cmpNat_gt_iff (a b : Nat) : cmpNat a b = .gt ↔ b < a := by
  unfold cmpNat
  by_cases h1 : a < b
  · simp [h1]
    omega
  · by_cases h2 : b < a <;> simp [h1, h2]

theorem cmpNat_eq_iff (a b : Nat) : cmpNat a b = .eq ↔ a = b := by
  unfold cmpNat
  by_cases h1 : a < b
  · simp [h1]
    omega
  · by_cases h2 : b < a <;> simp [h1, h2] <;> omega

theorem cmpNat_swap (a b : Nat) : cmpNat a b = (cmpNat b a).swap := by
  rcases Nat.lt_trichotomy a b with h | h | h
  · rw [(cmpNat_lt_iff a b).mpr h, (cmpNat_gt_iff b a).mpr h]
    rfl
  · rw [h, (cmpNat_eq_iff b b).mpr rfl]
    rfl
  · rw [(cmpNat_gt_iff a b).mpr h, (cmpNat_lt_iff b a).mpr h]
    rfl

theorem ordThen_lt (x : Ordering) : Ordering.lt.then x = .lt := rfl

theorem ordThen_gt (x : Ordering) : Ordering.gt.then x = .gt := rfl

theorem ordThen_eq (x : Ordering) : Ordering.eq.then x = x := rfl

theorem cmpCharList_swap :
    ∀ r s : List Char, cmpCharList r s = (cmpCharList s r).swap := by
  intro r
  induction r with
  | nil => intro s; cases s <;> rfl
  | cons a r' ih =>
    intro s
    cases s with
    | nil => rfl
    | cons b s' =>
      show (cmpNat a.toNat b.toNat).then (cmpCharList r' s') =
        ((cmpNat b.toNat a.toNat).then (cmpCharList s' r')).swap
      rw [cmpNat_swap a.toNat b.toNat]
      rcases h : cmpNat b.toNat a.toNat with _ | _ | _
      · rfl
      · show (Ordering.eq.then (cmpCharList r' s')) =
          (Ordering.eq.then (cmpCharList s' r')).swap
        rw [ordThen_eq, ordThen_eq]
        exact ih s'
      · rfl

/-- Transitivity of the strict part of the character-list comparison. -/
theorem cmpCharList_trans_lt :
    ∀ r s t : List Char, cmpCharList r s = .lt → cmpCharList s t = .lt →
      cmpCharList r t = .lt := by
  intro r
  induction r with
  | nil =>
    intro s t h1 h2
    cases s with
    | nil => exact h2
    | cons b s' =>
      cases t with
      | nil => exact absurd h2 (by simp [cmpCharList])
      | cons c t' => rfl
  | cons a r' ih =>
    intro s t h1 h2
    cases s with
    | nil => exact absurd h1 (by simp [cmpCharList])
    | cons b s' =>
      cases t with
      | nil => exact absurd h2 (by simp [cmpCharList])
      | cons c t' =>
        rw [cmpCharList] at h1 h2 ⊢
        rcases hab : cmpNat a.toNat b.toNat with _ | _ | _ <;>
          rcases hbc : cmpNat b.toNat c.toNat with _ | _ | _ <;>
            rw [hab] at h1 <;> rw [hbc] at h2
        · rw [(cmpNat_lt_iff _ _).mpr (Nat.lt_trans
            ((cmpNat_lt_iff _ _).mp hab) ((cmpNat_lt_iff _ _).mp hbc))]
          rfl
        · rw [(cmpNat_lt_iff _ _).mpr (by
            have e := (cmpNat_eq_iff _ _).mp hbc
            have l := (cmpNat_lt_iff _ _).mp hab
            omega)]
          rfl
        · exact absurd h2 (by rw [ordThen_gt]; exact fun hh => Ordering.noConfusion hh)
        · rw [(cmpNat_lt_iff _ _).mpr (by
            have e := (cmpNat_eq_iff _ _).mp hab
            have l := (cmpNat_lt_iff _ _).mp hbc
            omega)]
          rfl
        · rw [(cmpNat_eq_iff _ _).mpr (by
            have e1 := (cmpNat_eq_iff _ _).mp hab
            have e2 := (cmpNat_eq_iff _ _).mp hbc
            omega)]
          rw [ordThen_eq] at h1 h2 ⊢
          exact ih s' t' h1 h2
        · exact absurd h2 (by rw [ordThen_gt]; exact fun hh => Ordering.noConfusion hh)
        · exact absurd h1 (by rw [ordThen_gt]; exact fun hh => Ordering.noConfusion hh)
        · exact absurd h1 (by rw [ordThen_gt]; exact fun hh => Ordering.noConfusion hh)
        · exact absurd h1 (by rw [ordThen_gt]; exact fun hh => Ordering.noConfusion hh)

/-- An eq-comparison lets one side be substituted for the other in further
character-list comparisons. -/
theorem cmpCharList_congr :
    ∀ r s : List Char, cmpCharList r s = .eq →
      ∀ t, cmpCharList r t = cmpCharList s t := by
  intro r
  induction r with
  | nil =>
    intro s h t
    cases s with
    | nil => rfl
    | cons b s' => exact absurd h (by simp [cmpCharList])
  | cons a r' ih =>
    intro s h t
    cases s with
    | nil => exact absurd h (by simp [cmpCharList])
    | cons b s' =>
      rw [cmpCharList] at h
      rcases hab : cmpNat a.toNat b.toNat with _ | _ | _ <;> rw [hab] at h
      · exact absurd h (by rw [ordThen_lt]; exact fun hh => Ordering.noConfusion hh)
      · rw [ordThen_eq] at h
        have he : a.toNat = b.toNat := (cmpNat_eq_iff _ _).mp hab
        cases t with
        | nil => rfl
        | cons c t' =>
          rw [cmpCharList, cmpCharList, he, ih s' h t']
      · exact absurd h (by rw [ordThen_gt]; exact fun hh => Ordering.noConfusion hh)

/-- An eq-comparison forces equal head characters (as code points). -/
theorem cmpCharList_eq_headD :
    ∀ r s : List Char, cmpCharList r s = .eq →
      (r.headD ' ').toNat = (s.headD ' ').toNat := by
  intro r s h
  cases r with
  | nil =>
    cases s with
    | nil => rfl
    | cons b s' => exact absurd h (by simp [cmpCharList])
  | cons a r' =>
    cases s with
    | nil => exact absurd h (by simp [cmpCharList])
    | cons b s' =>
      rw [cmpCharList] at h
      rcases hab : cmpNat a.toNat b.toNat with _ | _ | _ <;> rw [hab] at h
      · exact absurd h (by rw [ordThen_lt]; exact fun hh => Ordering.noConfusion hh)
      · exact (cmpNat_eq_iff _ _).mp hab
      · exact absurd h (by rw [ordThen_gt]; exact fun hh => Ordering.noConfusion hh)

/-- Well-formed sort keys: digit runs are non-empty all-digit strings and
character keys are non-digits — exactly what the tokenizer produces. -/
def WfKey : SortKey → Prop
  | .num _ r => r ≠ [] ∧ ∀ c ∈ r, isDig c = true
  | .ch c => isDig c = false

theorem headD_mem {α : Type} (l : List α) (d : α) (h : l ≠ []) :
    l.headD d ∈ l := by
  cases l with
  | nil => exact absurd rfl h
  | cons a t => exact List.mem_cons_self a t

theorem isDig_bounds (c : Char) (h : isDig c = true) :
    48 ≤ c.toNat ∧ c.toNat ≤ 57 := by
  simp [isDig] at h
  exact h

theorem isDig_not_bounds (c : Char) (h : isDig c = false) :
    c.toNat < 48 ∨ 57 < c.toNat := by
  simp [isDig] at h
  omega

theorem keyCmp_swap : ∀ k1 k2 : SortKey, keyCmp k1 k2 = (keyCmp k2 k1).swap := by
  intro k1 k2
  cases k1 with
  | num v r =>
    cases k2 with
    | num w s =>
      show (cmpNat v w).then (cmpCharList r s) =
        ((cmpNat w v).then (cmpCharList s r)).swap
      rw [cmpNat_swap v w]
      rcases h : cmpNat w v with _ | _ | _
      · rfl
      · rw [show Ordering.eq.swap = Ordering.eq from rfl, ordThen_eq,
          ordThen_eq]
        exact cmpCharList_swap r s
      · rfl
    | ch c => exact cmpNat_swap _ _
  | ch c =>
    cases k2 with
    | num w s => exact cmpNat_swap _ _
    | ch d => exact cmpNat_swap _ _

theorem keyCmp_trans_lt :
    ∀ k1 k2 k3 : SortKey, WfKey k1 → WfKey k2 → WfKey k3 →
      keyCmp k1 k2 = .lt → keyCmp k2 k3 = .lt → keyCmp k1 k3 = .lt := by
  intro k1 k2 k3 w1 w2 w3 h12 h23
  cases k1 with
  | num v1 r1 =>
    have hb1 := isDig_bounds _ (w1.2 _ (headD_mem r1 ' ' w1.1))
    cases k2 with
    | num v2 r2 =>
      have hb2 := isDig_bounds _ (w2.2 _ (headD_mem r2 ' ' w2.1))
      cases k3 with
      | num v3 r3 =>
        show (cmpNat v1 v3).then (cmpCharList r1 r3) = .lt
        rw [keyCmp] at h12 h23
        rcases ha : cmpNat v1 v2 with _ | _ | _ <;> rw [ha] at h12 <;>
          rcases hb : cmpNat v2 v3 with _ | _ | _ <;> rw [hb] at h23
        · rw [(cmpNat_lt_iff v1 v3).mpr (by
            have l1 := (cmpNat_lt_iff _ _).mp ha
            have l2 := (cmpNat_lt_iff _ _).mp hb
            omega), ordThen_lt]
        · rw [(cmpNat_lt_iff v1 v3).mpr (by
            have l1 := (cmpNat_lt_iff _ _).mp ha
            have l2 := (cmpNat_eq_iff _ _).mp hb
            omega), ordThen_lt]
        · rw [ordThen_gt] at h23
          exact absurd h23 (fun hh => Ordering.noConfusion hh)
        · rw [(cmpNat_lt_iff v1 v3).mpr (by
            have l1 := (cmpNat_eq_iff _ _).mp ha
            have l2 := (cmpNat_lt_iff _ _).mp hb
            omega), ordThen_lt]
        · rw [(cmpNat_eq_iff v1 v3).mpr (by
            have l1 := (cmpNat_eq_iff _ _).mp ha
            have l2 := (cmpNat_eq_iff _ _).mp hb
            omega), ordThen_eq]
          rw [ordThen_eq] at h12 h23
          exact cmpCharList_trans_lt r1 r2 r3 h12 h23
        · rw [ordThen_gt] at h23
          exact absurd h23 (fun hh => Ordering.noConfusion hh)
        · rw [ordThen_gt] at h12
          exact absurd h12 (fun hh => Ordering.noConfusion hh)
        · rw [ordThen_gt] at h12
          exact absurd h12 (fun hh => Ordering.noConfusion hh)
        · rw [ordThen_gt] at h12
          exact absurd h12 (fun hh => Ordering.noConfusion hh)
      | ch c3 =>
        have hb2 := isDig_bounds _ (w2.2 _ (headD_mem r2 ' ' w2.1))
        have hb3 := isDig_not_bounds c3 w3
        have h23' := (cmpNat_lt_iff _ _).mp h23
        exact (cmpNat_lt_iff _ _).mpr (by omega)
    | ch c2 =>
      have hb2 := isDig_not_bounds c2 w2
      have h12' := (cmpNat_lt_iff _ _).mp h12
      cases k3 with
      | num v3 r3 =>
        have hb3 := isDig_bounds _ (w3.2 _ (headD_mem r3 ' ' w3.1))
        have h23' := (cmpNat_lt_iff _ _).mp h23
        exact absurd rfl (by omega : ¬ (0 : Nat) = 0)
      | ch c3 =>
        have h23' := (cmpNat_lt_iff _ _).mp h23
        exact (cmpNat_lt_iff _ _).mpr (by omega)
  | ch c1 =>
    have hb1 := isDig_not_bounds c1 w1
    cases k2 with
    | num v2 r2 =>
      have hb2 := isDig_bounds _ (w2.2 _ (headD_mem r2 ' ' w2.1))
      have h12' := (cmpNat_lt_iff _ _).mp h12
      cases k3 with
      | num v3 r3 =>
        have hb3 := isDig_bounds _ (w3.2 _ (headD_mem r3 ' ' w3.1))
        exact (cmpNat_lt_iff _ _).mpr (by omega)
      | ch c3 =>
        have h23' := (cmpNat_lt_iff _ _).mp h23
        exact (cmpNat_lt_iff _ _).mpr (by omega)
    | ch c2 =>
      have h12' := (cmpNat_lt_iff _ _).mp h12
      cases k3 with
      | num v3 r3 =>
        have hb3 := isDig_bounds _ (w3.2 _ (headD_mem r3 ' ' w3.1))
        have h23' := (cmpNat_lt_iff _ _).mp h23
        exact (cmpNat_lt_iff _ _).mpr (by omega)
      | ch c3 =>
        have h23' := (cmpNat_lt_iff _ _).mp h23
        exact (cmpNat_lt_iff _ _).mpr (by omega)

theorem keyCmp_congr :
    ∀ k1 k2 : SortKey, WfKey k1 → WfKey k2 → keyCmp k1 k2 = .eq →
      ∀ k3 : SortKey, keyCmp k1 k3 = keyCmp k2 k3 := by
  intro k1 k2 w1 w2 h12 k3
  cases k1 with
  | num v1 r1 =>
    cases k2 with
    | num v2 r2 =>
      rw [keyCmp] at h12
      rcases ha : cmpNat v1 v2 with _ | _ | _ <;> rw [ha] at h12
      · rw [ordThen_lt] at h12
        exact absurd h12 (fun hh => Ordering.noConfusion hh)
      · rw [ordThen_eq] at h12
        have hv : v1 = v2 := (cmpNat_eq_iff _ _).mp ha
        cases k3 with
        | num v3 r3 =>
          show (cmpNat v1 v3).then (cmpCharList r1 r3) =
            (cmpNat v2 v3).then (cmpCharList r2 r3)
          rw [hv, cmpCharList_congr r1 r2 h12 r3]
        | ch c3 =>
          show cmpNat (r1.headD ' ').toNat c3.toNat =
            cmpNat (r2.headD ' ').toNat c3.toNat
          rw [cmpCharList_eq_headD r1 r2 h12]
      · rw [ordThen_gt] at h12
        exact absurd h12 (fun hh => Ordering.noConfusion hh)
    | ch c2 =>
      have hb1 := isDig_bounds _ (w1.2 _ (headD_mem r1 ' ' w1.1))
      have hb2 := isDig_not_bounds c2 w2
      have he := (cmpNat_eq_iff _ _).mp h12
      exact absurd rfl (by omega : ¬ (0 : Nat) = 0)
  | ch c1 =>
    cases k2 with
    | num v2 r2 =>
      have hb1 := isDig_not_bounds c1 w1
      have hb2 := isDig_bounds _ (w2.2 _ (headD_mem r2 ' ' w2.1))
      have he := (cmpNat_eq_iff _ _).mp h12
      exact absurd rfl (by omega : ¬ (0 : Nat) = 0)
    | ch c2 =>
      have he : c1.toNat = c2.toNat := (cmpNat_eq_iff _ _).mp h12
      cases k3 with
      | num v3 r3 =>
        show cmpNat c1.toNat (r3.headD ' ').toNat =
          cmpNat c2.toNat (r3.headD ' ').toNat
        rw [he]
      | ch c3 =>
        show cmpNat c1.toNat c3.toNat = cmpNat c2.toNat c3.toNat
        rw [he]

theorem lexCmp_swap :
    ∀ xs ys : List SortKey, lexCmp xs ys = (lexCmp ys xs).swap := by
  intro xs
  induction xs with
  | nil => intro ys; cases ys <;> rfl
  | cons a xs' ih =>
    intro ys
    cases ys with
    | nil => rfl
    | cons b ys' =>
      show (keyCmp a b).then (lexCmp xs' ys') =
        ((keyCmp b a).then (lexCmp ys' xs')).swap
      rw [keyCmp_swap a b]
      rcases h : keyCmp b a with _ | _ | _
      · rfl
      · rw [show Ordering.eq.swap = Ordering.eq from rfl, ordThen_eq,
          ordThen_eq]
        exact ih ys'
      · rfl

theorem lexCmp_trans_le :
    ∀ xs ys zs : List SortKey, (∀ k ∈ xs, WfKey k) → (∀ k ∈ ys, WfKey k) →
      (∀ k ∈ zs, WfKey k) → lexCmp xs ys ≠ .gt → lexCmp ys zs ≠ .gt →
      lexCmp xs zs ≠ .gt := by
  intro xs
  induction xs with
  | nil =>
    intro ys zs _ _ _ _ _
    cases zs with
    | nil => exact fun hh => Ordering.noConfusion hh
    | cons c zs' => exact fun hh => Ordering.noConfusion hh
  | cons a xs' ih =>
    intro ys zs wx wy wz h1 h2
    cases ys with
    | nil =>
      exact absurd rfl h1
    | cons b ys' =>
      cases zs with
      | nil => exact absurd rfl h2
      | cons c zs' =>
        rw [lexCmp] at h1 h2
        show ¬ (keyCmp a c).then (lexCmp xs' zs') = .gt
        have wa := wx a (List.mem_cons_self a xs')
        have wb := wy b (List.mem_cons_self b ys')
        have wc := wz c (List.mem_cons_self c zs')
        rcases hab : keyCmp a b with _ | _ | _ <;> rw [hab] at h1
        · rcases hbc : keyCmp b c with _ | _ | _ <;> rw [hbc] at h2
          · rw [keyCmp_trans_lt a b c wa wb wc hab hbc, ordThen_lt]
            exact fun hh => Ordering.noConfusion hh
          · have hsub := keyCmp_congr b c wb wc hbc a
            have hac : keyCmp a c = keyCmp a b := by
              rw [keyCmp_swap a c, ← hsub, ← keyCmp_swap a b]
            rw [hac, hab, ordThen_lt]
            exact fun hh => Ordering.noConfusion hh
          · rw [ordThen_gt] at h2
            exact absurd rfl h2
        · rcases hbc : keyCmp b c with _ | _ | _ <;> rw [hbc] at h2
          · rw [keyCmp_congr a b wa wb hab c, hbc, ordThen_lt]
            exact fun hh => Ordering.noConfusion hh
          · rw [keyCmp_congr a b wa wb hab c, hbc, ordThen_eq]
            rw [ordThen_eq] at h1 h2
            exact ih ys' zs'
              (fun k hk => wx k (List.mem_cons_of_mem a hk))
              (fun k hk => wy k (List.mem_cons_of_mem b hk))
              (fun k hk => wz k (List.mem_cons_of_mem c hk)) h1 h2
          · rw [ordThen_gt] at h2
            exact absurd rfl h2
        · rw [ordThen_gt] at h1
          exact absurd rfl h1

theorem tokGo_wf :
    ∀ (l acc : List Char), (∀ c ∈ acc, isDig c = true) →
      ∀ k ∈ tokGo l acc, WfKey k := by
  intro l
  induction l with
  | nil =>
    intro acc hacc k hk
    rw [tokGo] at hk
    by_cases ha : acc.isEmpty = true
    · rw [if_pos ha] at hk
      exact absurd hk (List.not_mem_nil k)
    · rw [if_neg ha] at hk
      have hk' : k = mkNum acc.reverse := List.mem_singleton.mp hk
      rw [hk']
      refine ⟨?_, ?_⟩
      · intro hrev
        have : acc = [] := by
          have := congrArg List.reverse hrev
          simpa using this
        rw [this] at ha
        exact ha rfl
      · intro c hc
        exact hacc c (List.mem_reverse.mp hc)
  | cons c t ih =>
    intro acc hacc k hk
    rw [tokGo] at hk
    by_cases hd : isDig c = true
    · rw [if_pos hd] at hk
      exact ih (c :: acc)
        (fun d hdm => by
          rcases List.mem_cons.mp hdm with rfl | hdm'
          · exact hd
          · exact hacc d hdm') k hk
    · rw [if_neg hd] at hk
      by_cases ha : acc.isEmpty = true
      · rw [if_pos ha] at hk
        rcases List.mem_cons.mp hk with rfl | hk'
        · exact (Bool.not_eq_true (isDig c)).mp hd
        · exact ih [] (fun d hdm => absurd hdm (List.not_mem_nil d)) k hk'
      · rw [if_neg ha] at hk
        rcases List.mem_cons.mp hk with rfl | hk'
        · refine ⟨?_, ?_⟩
          · intro hrev
            have : acc = [] := by
              have := congrArg List.reverse hrev
              simpa using this
            rw [this] at ha
            exact ha rfl
          · intro d hdm
            exact hacc d (List.mem_reverse.mp hdm)
        · rcases List.mem_cons.mp hk' with rfl | hk''
          · exact (Bool.not_eq_true (isDig c)).mp hd
          · exact ih [] (fun d hdm => absurd hdm (List.not_mem_nil d)) k hk''

theorem tokenize_wf (l : List Char) : ∀ k ∈ tokenize l, WfKey k :=
  tokGo_wf l [] (fun d hdm => absurd hdm (List.not_mem_nil d))

theorem natCmp_swap (a b : List Char) : natCmp a b = (natCmp b a).swap :=
  lexCmp_swap (tokenize a) (tokenize b)

instance : IsTotal (List Char) ascRel := by
  constructor
  intro a b
  by_cases h : natCmp b a = .gt
  · right
    show natCmp a b ≠ .gt
    rw [natCmp_swap a b, h]
    exact fun hh => Ordering.noConfusion hh
  · left
    exact h

instance : IsTrans (List Char) ascRel := by
  constructor
  intro a b c hab hbc
  exact lexCmp_trans_le (tokenize c) (tokenize b) (tokenize a)
    (tokenize_wf c) (tokenize_wf b) (tokenize_wf a) hbc hab

theorem splitWhitespaceGo_mem :
    ∀ (l acc : List Char), (∀ c ∈ acc, wsB c = false) →
      ∀ t ∈ splitWhitespaceGo l acc,
        (∀ c ∈ t, wsB c = false) ∧ t ≠ [] := by
  intro l
  induction l with
  | nil =>
    intro acc hacc t ht
    rw [splitWhitespaceGo] at ht
    by_cases ha : acc.isEmpty = true
    · rw [if_pos ha] at ht
      exact absurd ht (List.not_mem_nil t)
    · rw [if_neg ha] at ht
      have ht' : t = acc.reverse := List.mem_singleton.mp ht
      subst ht'
      refine ⟨fun c hc => hacc c (List.mem_reverse.mp hc), ?_⟩
      intro hrev
      have hnil : acc = [] := by
        have := congrArg List.reverse hrev
        simpa using this
      rw [hnil] at ha
      exact ha rfl
  | cons c l' ih =>
    intro acc hacc t ht
    rw [splitWhitespaceGo] at ht
    by_cases hw : wsB c = true
    · rw [if_pos hw] at ht
      by_cases ha : acc.isEmpty = true
      · rw [if_pos ha] at ht
        exact ih [] (fun d hd => absurd hd (List.not_mem_nil d)) t ht
      · rw [if_neg ha] at ht
        rcases List.mem_cons.mp ht with rfl | ht'
        · refine ⟨fun d hd => hacc d (List.mem_reverse.mp hd), ?_⟩
          intro hrev
          have hnil : acc = [] := by
            have := congrArg List.reverse hrev
            simpa using this
          rw [hnil] at ha
          exact ha rfl
        · exact ih [] (fun d hd => absurd hd (List.not_mem_nil d)) t ht'
    · rw [if_neg hw] at ht
      exact ih (c :: acc)
        (fun d hd => by
          rcases List.mem_cons.mp hd with hdc | hd'
          · rw [hdc]
            exact (Bool.not_eq_true (wsB c)).mp hw
          · exact hacc d hd') t ht

theorem dropWhile_eq_self_of_all {α : Type} (p : α → Bool) (l : List α)
    (h : ∀ c ∈ l, p c = false) : l.dropWhile p = l := by
  cases l with
  | nil => rfl
  | cons a t =>
    rw [List.dropWhile_cons,
      if_neg (by rw [h a (List.mem_cons_self a t)]; exact Bool.false_ne_true)]

theorem trim_of_no_ws (t : List Char) (h : ∀ c ∈ t, wsB c = false) :
    trimChars t = t := by
  unfold trimChars
  rw [dropWhile_eq_self_of_all wsB t h]
  rw [dropWhile_eq_self_of_all wsB t.reverse
    (fun c hc => h c (List.mem_reverse.mp hc))]
  exact List.reverse_reverse t

theorem from_strL_token (t : List Char) (h : ∀ c ∈ t, wsB c = false) :
    RemoteVersion.from_strL t = .OtherVersion t := by
  have hns : containsSub " | ".toList t = false := by
    rcases hb : containsSub " | ".toList t with _ | _
    · rfl
    · rcases Option.isSome_iff_exists.mp hb with ⟨i, hi⟩
      have hmem : (' ' : Char) ∈ t := mem_of_findSubstr _ t i hi ' ' (by decide)
      have := h ' ' hmem
      exact absurd this (by decide)
  unfold RemoteVersion.from_strL
  rw [if_neg (by rw [hns]; exact Bool.false_ne_true)]
  rw [trim_of_no_ws t h]

/-- The whitespace tokens of the generic version-list format: skip 3 lines,
take lines up to the first line starting with "===", join with spaces and
split on whitespace. -/
def genTokens (input : List Char) : List (List Char) :=
  splitWhitespaceL
    (interc " ".toList
      (((rustLines input).drop 3).takeWhile
        (fun line => !("===".toList.isPrefixOf line))))

/-- Counterexample to claim C6 as stated: the code stops at lines starting
with "===", not at lines starting with "=": on a version list whose data
line "=x 2.0" begins with a single "=", the code keeps the line (two
entries) while the claim's algorithm stops before it (no entries). -/
theorem claim_C6_counterexample :
    parse_available_versions "h1\nh2\nh3\n=x 2.0\n=== f" =
      [RemoteVersion.OtherVersion "=x".toList,
       RemoteVersion.OtherVersion "2.0".toList] ∧
    parse_available_versions_claimC6 "h1\nh2\nh3\n=x 2.0\n=== f" = [] := by
  constructor
  · decide
  · decide

/-- Claim C6 (amended): for every non-Java version-list text, the parser
skips the first 3 lines, takes lines up to but not including the first line
starting with "===" (three equals signs, not one), splits the joined text
on whitespace and returns the tokens as simple entries sorted in descending
alphanumeric order (Sorted ascRel means every earlier token compares
greater-or-equal under the numeric-run-aware comparison); the claim's
concrete example holds: the sort puts "1.10.0" before "1.9.0". -/
theorem claim_C6_generic_descending_sort :
    (∀ input : List Char,
        containsSub "Available Java Versions".toList input = false →
          parse_available_versionsL input =
            (List.insertionSort ascRel (genTokens input)).map
              RemoteVersion.OtherVersion ∧
          (List.insertionSort ascRel (genTokens input)).Perm
            (genTokens input) ∧
          List.Sorted ascRel
            (List.insertionSort ascRel (genTokens input))) ∧
    parse_available_versions
        "=== header ===\nline1\nline2\n1.2.0 1.10.0 1.9.0\n=== footer ===" =
      [RemoteVersion.OtherVersion "1.10.0".toList,
       RemoteVersion.OtherVersion "1.9.0".toList,
       RemoteVersion.OtherVersion "1.2.0".toList] := by
  constructor
  · intro input h
    refine ⟨?_, List.perm_insertionSort ascRel _,
      List.sorted_insertionSort ascRel _⟩
    unfold parse_available_versionsL
    rw [if_neg (by rw [h]; exact Bool.false_ne_true)]
    unfold genTokens
    apply List.map_congr_left
    intro t ht
    have ht' := (List.mem_insertionSort ascRel).mp ht
    have hprops := splitWhitespaceGo_mem _ []
      (fun d hd => absurd hd (List.not_mem_nil d)) t ht'
    exact from_strL_token t hprops.1
  · decide

/-- Witness for the amended claim C6 at the claim's concrete input. -/
theorem claim_C6_amended_witness :
    parse_available_versionsL
        "=== header ===\nline1\nline2\n1.2.0 1.10.0 1.9.0\n=== footer ===".toList =
      (List.insertionSort ascRel
          (genTokens
            "=== header ===\nline1\nline2\n1.2.0 1.10.0 1.9.0\n=== footer ===".toList)).map
        RemoteVersion.OtherVersion :=
  ((claim_C6_generic_descending_sort.1 _ (by decide)).1)

/-! ### Claim C7: the Java tabular sub-parser -/

/-- Counterexample to claim C7 as stated: a retained row without pipe
separators ("plain") is not split into pipe-delimited JavaVersion fields —
the code produces a simple entry, unlike the claim's algorithm. -/
theorem claim_C7_counterexample :
    parse_available_versions
        "Available Java Versions\nh2\nh3\nh4\nh5\nplain\n=== x" =
      [RemoteVersion.OtherVersion "plain".toList] ∧
    parse_available_java_versions_claimC7
        "Available Java Versions\nh2\nh3\nh4\nh5\nplain\n=== x" =
      [RemoteVersion.JavaVersion "plain".toList [] [] [] [] []] := by
  constructor
  · decide
  · decide

/-- Claim C7 (amended): a version-list text containing "Available Java
Versions" is dispatched to the Java tabular sub-parser (5 header lines
skipped); every retained row containing " | " is split on '|' into
whitespace-trimmed fields with missing fields defaulting to the empty
string (rows without " | " become simple entries); the claim's concrete
Eclipse row yields the identifier 17.0.2-tem. -/
theorem claim_C7_java_tabular_parsing :
    (∀ input : List Char,
        containsSub "Available Java Versions".toList input = true →
          parse_available_versionsL input =
            parse_available_java_versionsL input) ∧
    (∀ row : List Char, containsSub " | ".toList row = true →
        RemoteVersion.from_strL row =
          RemoteVersion.JavaVersion
            (string_at ((splitOnCharTerm '|' row).map trimChars) 0)
            (string_at ((splitOnCharTerm '|' row).map trimChars) 1)
            (string_at ((splitOnCharTerm '|' row).map trimChars) 2)
            (string_at ((splitOnCharTerm '|' row).map trimChars) 3)
            (string_at ((splitOnCharTerm '|' row).map trimChars) 4)
            (string_at ((splitOnCharTerm '|' row).map trimChars) 5)) ∧
    parse_available_versions
        "Available Java Versions\nh2\nh3\nh4\nh5\nEclipse | | 17.0.2 | tem | | 17.0.2-tem\n=== x" =
      [RemoteVersion.JavaVersion "Eclipse".toList [] "17.0.2".toList
        "tem".toList [] "17.0.2-tem".toList] := by
  refine ⟨?_, ?_, by decide⟩
  · intro input h
    unfold parse_available_versionsL
    rw [if_pos h]
  · intro row h
    unfold RemoteVersion.from_strL
    rw [if_pos h]

/-- Witness for the amended claim C7 at the claim's concrete input. -/
theorem claim_C7_amended_witness :
    parse_available_versionsL
        "Available Java Versions\nh2\nh3\nh4\nh5\nEclipse | | 17.0.2 | tem | | 17.0.2-tem\n=== x".toList =
      parse_available_java_versionsL
        "Available Java Versions\nh2\nh3\nh4\nh5\nEclipse | | 17.0.2 | tem | | 17.0.2-tem\n=== x".toList :=
  claim_C7_java_tabular_parsing.1 _ (by decide)

/-- Claim C8: reconciliation looks the entry's identity key (the simple
value or the Java identifier) up in the local map — a present key marks the
entry installed with `current` equal to the stored boolean, an absent key
leaves both unset, and the empty local map leaves every entry unmarked. -/
theorem claim_C8_reconciliation_lookup :
    ∀ (v : RemoteVersion) (m : VMap),
      (∀ b : Bool, lookupMap m v.id = some b →
        RemoteVersion.get_status_and_usage v m v.id =
          ("installed".toList, if b then "current".toList else [])) ∧
      (lookupMap m v.id = none →
        RemoteVersion.get_status_and_usage v m v.id = ([], [])) ∧
      RemoteVersion.get_status_and_usage v [] v.id = ([], []) := by
  intro v m
  refine ⟨?_, ?_, rfl⟩
  · intro b hb
    unfold RemoteVersion.get_status_and_usage containsKey
    rw [hb]
    cases b
    · rfl
    · rfl
  · intro hb
    unfold RemoteVersion.get_status_and_usage containsKey
    rw [hb]
    rfl

/-- Witness for claim C8: a map storing true for the entry's key yields the
installed and current markers. -/
theorem claim_C8_witness :
    RemoteVersion.get_status_and_usage
        (RemoteVersion.OtherVersion "17.0.2-tem".toList)
        [("17.0.2-tem".toList, true)]
        (RemoteVersion.OtherVersion "17.0.2-tem".toList).id =
      ("installed".toList, "current".toList) :=
  (claim_C8_reconciliation_lookup
    (RemoteVersion.OtherVersion "17.0.2-tem".toList)
    [("17.0.2-tem".toList, true)]).1 true (by decide)

/-- Claim C9: the field-access helper string_at is total — it returns the
element at an in-range index and the empty string out of range, which is
what makes Java rows with fewer than 6 pipe-delimited fields default their
missing fields (such as the identifier) to empty strings. -/
theorem claim_C9_string_at_total :
    (∀ (parts : List (List Char)) (index : Nat),
      (∀ h : index < parts.length,
        string_at parts index = parts.get ⟨index, h⟩) ∧
      (parts.length ≤ index → string_at parts index = [])) ∧
    (∀ input : List Char, containsSub " | ".toList input = true →
      ((splitOnCharTerm '|' input).map trimChars).length ≤ 5 →
      RemoteVersion.from_strL input =
        RemoteVersion.JavaVersion
          (string_at ((splitOnCharTerm '|' input).map trimChars) 0)
          (string_at ((splitOnCharTerm '|' input).map trimChars) 1)
          (string_at ((splitOnCharTerm '|' input).map trimChars) 2)
          (string_at ((splitOnCharTerm '|' input).map trimChars) 3)
          (string_at ((splitOnCharTerm '|' input).map trimChars) 4)
          []) := by
  constructor
  · intro parts index
    constructor
    · intro h
      unfold string_at
      rw [List.get?_eq_get h]
      rfl
    · intro h
      unfold string_at
      rw [List.get?_eq_none.mpr h]
      rfl
  · intro input h hlen
    have h5 : string_at ((splitOnCharTerm '|' input).map trimChars) 5 = [] := by
      unfold string_at
      rw [List.get?_eq_none.mpr (by omega)]
      rfl
    unfold RemoteVersion.from_strL
    rw [if_pos h]
    simp only [h5]

/-- Witness for claim C9: in-range and out-of-range accesses on a two-field
row. -/
theorem claim_C9_witness :
    string_at ["a".toList, "b".toList] 0 = "a".toList ∧
    string_at ["a".toList, "b".toList] 5 = [] :=
  ⟨(claim_C9_string_at_total.1 ["a".toList, "b".toList] 0).1 (by decide),
   (claim_C9_string_at_total.1 ["a".toList, "b".toList] 5).2 (by decide)⟩

/-- Claim C10: current implies installed — whenever the reconciliation
lookup marks a version current (the map stores true for the key), the same
lookup also marks it installed, because the current flag can only come from
a key present in the local map. -/
theorem claim_C10_current_implies_installed :
    ∀ (v : RemoteVersion) (m : VMap) (version : List Char),
      (RemoteVersion.get_status_and_usage v m version).2 =
        "current".toList →
      (RemoteVersion.get_status_and_usage v m version).1 =
        "installed".toList := by
  intro v m version h
  rcases hl : lookupMap m version with _ | b
  · have hsnd : (RemoteVersion.get_status_and_usage v m version).2 = [] := by
      unfold RemoteVersion.get_status_and_usage
      rw [hl]
      rfl
    rw [hsnd] at h
    exact absurd h (by decide)
  · cases b with
    | false =>
      have hsnd : (RemoteVersion.get_status_and_usage v m version).2 = [] := by
        unfold RemoteVersion.get_status_and_usage
        rw [hl]
        rfl
      rw [hsnd] at h
      exact absurd h (by decide)
    | true =>
      unfold RemoteVersion.get_status_and_usage containsKey
      rw [hl]
      rfl

/-- Witness for claim C10: a version stored as current is reported
installed. -/
theorem claim_C10_witness :
    (RemoteVersion.get_status_and_usage
        (RemoteVersion.OtherVersion "x".toList) [("x".toList, true)]
        "x".toList).1 = "installed".toList :=
  claim_C10_current_implies_installed
    (RemoteVersion.OtherVersion "x".toList) [("x".toList, true)]
    "x".toList (by decide)
